import Mathlib

/-!
# Verification of `mindful_client` (streaming chat client)

Shallow embedding of the core logic of `src/mindful_client/__init__.py`:

* the streaming response decoder `__stream_response` (lines 324-379),
  modelled at the level of decoded text chunks (`List Char`) and, for the
  byte-oriented behaviour of `chunk.decode('utf-8')`, at the level of raw
  byte chunks (`List Nat`);
* the per-turn conversation logic of `get_completions` (lines 408-530):
  history reconciliation, user/assistant message construction, and the
  error paths of the surrounding `try/except`;
* the append-merge logic of `__save_history` (lines 248-301).

Conventions: Python strings are `List Char`; Python `None` is `Option.none`;
a Python function that can raise is an `Option`-valued function, with `none`
for the raised-exception outcome.
-/

set_option autoImplicit false

namespace MindfulClient

/-! ## Splitting buffered text on newlines

Models Python `buffer.split('\n')` (line 340). `glueHead x ls` prepends `x`
to the first fragment of `ls`; `splitNl` always returns a non-empty list,
exactly as `str.split` does. -/

/-- Prepend `x` to the head fragment of a fragment list. -/
def glueHead (x : List Char) : List (List Char) → List (List Char)
  | [] => [x]
  | h :: t => (x ++ h) :: t

/-- Model of Python `s.split('\n')` on character lists. -/
def splitNl : List Char → List (List Char)
  | [] => [[]]
  | c :: rest => if c = '\n' then [] :: splitNl rest else glueHead [c] (splitNl rest)

/-! ## The restricted JSON payload parser

`__stream_response` calls `json.loads(line[6:])` and then reads the
`content` field (lines 345-347).  The wire format consists of single-line
records `data: {"content": <json string>}`; we embed `json.loads` followed
by the `'content' in data` lookup for exactly that record shape, with the
two JSON string escapes `\"` and `\\`.  A line whose remainder does not fit
this shape is mapped to `none`, which is also how the code treats it: a
`json.JSONDecodeError` is caught and the line skipped, and a decoded object
without a string `content` field contributes nothing. -/

/-- Drop an expected literal sequence from the front, or fail. -/
def dropLit : List Char → List Char → Option (List Char)
  | [], l => some l
  | _ :: _, [] => none
  | p :: ps, c :: cs => if c = p then dropLit ps cs else none

/-- Parse the body of a JSON string up to its closing quote, decoding the
escapes `\"` and `\\`; returns the decoded body and the remaining input. -/
def parseJsonString : List Char → Option (List Char × List Char)
  | [] => none
  | c :: rest =>
    if c = '"' then some ([], rest)
    else if c = '\\' then
      match rest with
      | [] => none
      | e :: rest2 =>
        if e = '"' ∨ e = '\\' then
          match parseJsonString rest2 with
          | some (s, r) => some (e :: s, r)
          | none => none
        else none
    else
      match parseJsonString rest with
      | some (s, r) => some (c :: s, r)
      | none => none

/-- The opening part of a wire record after `data: ` up to the start of the
content string: an opening brace, the quoted key `content`, a colon, a
space, and the opening quote of the value. -/
def jsonOpen : List Char := ['\x7b', '"'] ++ "content".data ++ ['"', ':', ' ', '"']

/-- Model of `json.loads(s)['content']` for single-line records of shape
`\x7bcontent: string\x7d`; `none` where `json.loads` raises or no string
`content` field is present. -/
def contentOfDataJson (s : List Char) : Option (List Char) :=
  match dropLit jsonOpen s with
  | none => none
  | some rest =>
    match parseJsonString rest with
    | none => none
    | some (content, tail) => if tail = ['\x7d'] then some content else none

/-! ## Processing one terminated line (lines 342-355) -/

/-- The `data: ` line tag tested by `line.startswith('data: ')`. -/
def dataTag : List Char := "data: ".data

/-- Truthiness of Python `line.strip()`: the line has a non-whitespace
character. -/
def pyStripTruthy (l : List Char) : Bool :=
  l.any (fun c => ¬ (c = ' ' ∨ c = '\t' ∨ c = '\n' ∨ c = '\r'))

/-- Process a single fully terminated line against the accumulator
`stream_text`, mirroring lines 342-355: a non-blank line starting with
`data: ` whose remainder decodes to a record with a `content` field appends
that content; every other line leaves the accumulator unchanged. -/
def processLine (acc : List Char) (line : List Char) : List Char :=
  if pyStripTruthy line ∧ dataTag.isPrefixOf line then
    match contentOfDataJson (line.drop 6) with
    | some c => acc ++ c
    | none => acc
  else acc

/-! ## The chunk loop (lines 333-375) -/

/-- Decoder state: the unterminated trailing fragment retained across
chunks, and the accumulated `stream_text`. -/
structure DecState where
  buffer : List Char
  acc : List Char
deriving DecidableEq, Repr

/-- One iteration of `for chunk in response.iter_content(...)` on an
already-decoded text chunk: an empty chunk is skipped (`if not chunk:
continue`); otherwise the buffer is extended, split on newlines, all but
the last fragment are processed, and the last fragment becomes the new
buffer. -/
def processChunk (st : DecState) (chunk : List Char) : DecState :=
  if chunk = [] then st
  else
    let lines := splitNl (st.buffer ++ chunk)
    ⟨lines.getLastD [], lines.dropLast.foldl processLine st.acc⟩

/-- Initial decoder state (`buffer = ""`, `stream_text = ""`). -/
def initState : DecState := ⟨[], []⟩

/-- The accumulated `stream_text` after consuming all chunks and flushing
the remaining buffer; the flush at lines 360-371 applies the same rule as
the per-line step. -/
def runChunks (chunks : List (List Char)) : List Char :=
  let st := chunks.foldl processChunk initState
  processLine st.acc st.buffer

/-! ## The final quote strip and the return value (line 375) -/

/-- Remove every leading `"` character. -/
def stripLeadQ : List Char → List Char
  | [] => []
  | c :: rest => if c = '"' then stripLeadQ rest else c :: rest

/-- Model of Python `s.strip('"')`: removes every leading and every
trailing `"` character. -/
def stripQuotes (l : List Char) : List Char :=
  (stripLeadQ (stripLeadQ l).reverse).reverse

/-- The value returned by `__stream_response` on the non-exception path:
the accumulated text with its quote ends stripped. -/
def streamResponseText (chunks : List (List Char)) : List Char :=
  stripQuotes (runChunks chunks)

/-! ## Byte-level chunks

`response.iter_content(chunk_size=1024)` yields raw byte chunks and each is
decoded independently by `chunk.decode('utf-8')` (line 339).  We embed a
strict UTF-8 decoder; a chunk that is not a complete UTF-8 sequence makes
`decode` raise `UnicodeDecodeError`, which the surrounding `except` turns
into a `None` result for the whole call (lines 377-379). -/

/-- A UTF-8 continuation byte. -/
def contByte (b : Nat) : Bool := 128 ≤ b && b < 192

/-- Strict UTF-8 decoding of a byte list, rejecting truncated sequences,
stray continuation bytes, overlong encodings and surrogates, as Python's
`bytes.decode('utf-8')` does. -/
def utf8Decode : List Nat → Option (List Char)
  | [] => some []
  | b :: rest =>
    if b < 128 then
      (utf8Decode rest).map (fun cs => Char.ofNat b :: cs)
    else if 194 ≤ b && b ≤ 223 then
      match rest with
      | b2 :: r2 =>
        if contByte b2 then
          (utf8Decode r2).map (fun cs => Char.ofNat ((b - 192) * 64 + (b2 - 128)) :: cs)
        else none
      | [] => none
    else if 224 ≤ b && b ≤ 239 then
      match rest with
      | b2 :: b3 :: r3 =>
        if contByte b2 && contByte b3 && (b ≠ 224 || 160 ≤ b2) && (b ≠ 237 || b2 < 160) then
          (utf8Decode r3).map
            (fun cs => Char.ofNat ((b - 224) * 4096 + (b2 - 128) * 64 + (b3 - 128)) :: cs)
        else none
      | _ => none
    else if 240 ≤ b && b ≤ 244 then
      match rest with
      | b2 :: b3 :: b4 :: r4 =>
        if contByte b2 && contByte b3 && contByte b4 &&
            (b ≠ 240 || 144 ≤ b2) && (b ≠ 244 || b2 < 144) then
          (utf8Decode r4).map
            (fun cs => Char.ofNat
              ((b - 240) * 262144 + (b2 - 128) * 4096 + (b3 - 128) * 64 + (b4 - 128)) :: cs)
        else none
      | _ => none
    else none

/-- `__stream_response` on raw byte chunks: if every chunk decodes, the
decoder runs on the decoded text chunks and returns the stripped result;
if any chunk fails to decode, the exception handler returns `None`. -/
def streamResponseBytes (bchunks : List (List Nat)) : Option (List Char) :=
  (bchunks.mapM utf8Decode).map streamResponseText

/-! ## Well-formed wire streams -/

/-- A content string that appears literally (without escaping) inside a
well-formed single-line record: no quote, no backslash, no newline. -/
def PlainStr (s : List Char) : Prop :=
  ∀ c ∈ s, c ≠ '"' ∧ c ≠ '\\' ∧ c ≠ '\n'

instance (s : List Char) : Decidable (PlainStr s) := by
  unfold PlainStr; infer_instance

/-- The well-formed wire line `data: \x7b"content": "s"\x7d`. -/
def mkDataLine (s : List Char) : List Char :=
  dataTag ++ jsonOpen ++ s ++ ['"', '\x7d']

/-- Join lines with a single `'\n'` between consecutive lines. -/
def joinNl : List (List Char) → List Char
  | [] => []
  | [x] => x
  | x :: y :: rest => x ++ '\n' :: joinNl (y :: rest)

/-- The full wire stream for content strings `ss`: one record line per
string, newline-separated, with a trailing newline iff `t`. -/
def fullStream (ss : List (List Char)) (t : Bool) : List Char :=
  joinNl (ss.map mkDataLine) ++ (if t then ['\n'] else [])

/-! ## Messages and histories (the data model of `get_completions`)

A message is the dict `\x7bid, role, content, model\x7d` built at lines
451-456, 491-496 and 516-521.  `content` is a plain string for system
messages, a list of parts for user messages, and either a string or `None`
(when `__stream_response` failed) for assistant messages. -/

/-- One element of a user message's `content` list.  `textPart t` stands
for the dict with `type: "text"` and `text: t` (lines 470-473);
`imagePart u` stands for the dict with `type: "image_url"` and a nested
`file_url` dict holding `url: u` (lines 485-488). -/
inductive ContentPart where
  | textPart (t : List Char)
  | imagePart (u : List Char)
deriving DecidableEq, Repr

/-- A message `content` value. -/
inductive Content where
  | str (s : List Char)
  | parts (ps : List ContentPart)
  | null
deriving DecidableEq, Repr

/-- A chat message. -/
structure Message where
  id : List Char
  role : List Char
  content : Content
  model : List Char
deriving DecidableEq, Repr

/-- Placeholder used only to totalise head access on lists the code
guarantees non-empty (Python would raise `IndexError` on an empty one). -/
def dummyMessage : Message := ⟨[], [], Content.null, []⟩

/-- `history[0]['id']` (line 465). -/
def historyTaskId (h : List Message) : List Char := (h.headD dummyMessage).id

/-- The per-session client configuration.  `model` is the resolved model
identifier `self.__model`.  `getAgent` stands for `self.__get_agent(agent,
instruction)` (lines 126-141): its value is determined by the packaged
preset blob `mf.py`, which is data shipped outside the source module, so it
is kept abstract here.  `upload` stands for `self.__upload_image(path)`
(lines 156-170), with `none` for the raised `UploadError` outcome. -/
structure Client where
  model : List Char
  getAgent : List Char → Option (List Char) → List Char
  upload : List Char → Option (List Char)

/-- Python truthiness of an optional string (`None` and `""` are falsy). -/
def isTruthyOpt : Option (List Char) → Bool
  | none => false
  | some s => s ≠ []

/-- Python truthiness of the `history` argument (`None` and `[]` falsy). -/
def histTruthy : Option (List Message) → Bool
  | none => false
  | some h => h ≠ []

/-- Lines 430-433: a truthy `instruction` switches the agent to `custom`. -/
def effectiveAgent (agent : List Char) (instruction : Option (List Char)) : List Char :=
  if isTruthyOpt instruction then "custom".data else agent

/-- The second argument passed to `__get_agent` at lines 439 and 449:
`instruction if agent == 'custom' else None`. -/
def instructionArg (agent : List Char) (instruction : Option (List Char)) :
    Option (List Char) :=
  if agent = "custom".data then instruction else none

/-- The system prompt `get_completions` computes for the requested
agent/instruction (lines 430-439 and 449). -/
def computedSystemPrompt (c : Client) (agent : List Char)
    (instruction : Option (List Char)) : List Char :=
  let a := effectiveAgent agent instruction
  c.getAgent a (instructionArg a instruction)

/-- `msg['role'] in ('user', 'assistant')` (line 460). -/
def userOrAssistant (m : Message) : Bool :=
  m.role = "user".data || m.role = "assistant".data

/-- Lines 436-465: decide whether the agent/instruction changed relative
to `history[0]['content']`, and either reuse the given history or build a
new one: a fresh system message (fresh task id only when no truthy history
was given, otherwise the prior `history[0]['id']`) followed by the
`user`/`assistant` messages of `history[1:]`. -/
def reconcileHistory (c : Client) (fresh : List Char)
    (history : Option (List Message)) (agent : List Char)
    (instruction : Option (List Char)) : List Message :=
  let prompt := computedSystemPrompt c agent instruction
  let agentChanged :=
    match history with
    | some (m :: _) => m.content ≠ Content.str prompt
    | _ => false
  if agentChanged || !histTruthy history then
    let headId :=
      if !histTruthy history then fresh
      else match history with
        | some (m :: _) => m.id
        | _ => fresh
    let tail :=
      match history with
      | some h => if h.length > 1 then (h.drop 1).filter userOrAssistant else []
      | none => []
    ⟨headId, "system".data, Content.str prompt, c.model⟩ :: tail
  else
    history.getD []

/-- Lines 467-489: the user `content` list, a text part when the prompt is
truthy followed by one image part per uploaded url, in input order. -/
def buildUserContent (prompt : List Char) (urls : List (List Char)) :
    List ContentPart :=
  (if prompt ≠ [] then [ContentPart.textPart prompt] else [])
    ++ urls.map ContentPart.imagePart

/-- The user message appended at lines 491-496. -/
def turnUserMessage (c : Client) (taskId prompt : List Char)
    (urls : List (List Char)) : Message :=
  ⟨taskId, "user".data, Content.parts (buildUserContent prompt urls), c.model⟩

/-- The assistant `content` built from the `__stream_response` result
(line 519): the text itself, or `None` when streaming failed. -/
def respContent : Option (List Char) → Content
  | some s => Content.str s
  | none => Content.null

/-- The outcome of the network round trip inside the `try` block:
`transportFail` models an exception raised by `requests.post` /
`raise_for_status` (line 512-513); `streamed r saveFail` models
`__stream_response` returning `r` (which is `None` on an internal
streaming error) followed by `__save_history` raising iff `saveFail`
(line 523). -/
inductive TurnOutcome where
  | transportFail
  | streamed (r : Option (List Char)) (saveFail : Bool)

/-- Shallow embedding of `get_completions` (lines 408-530).  `fresh` is
the task id `__get_task_id` would generate for this call.  The top-level
`ValueError` checks on the argument types (lines 419-423) are enforced by
the Lean types themselves.  Every `except`-path return of
`(None, history)` returns the *local* `history` variable, i.e. the list as
already reconciled/extended at the point the exception was raised. -/
def get_completions (c : Client) (fresh : List Char) (prompt : List Char)
    (imagePaths : List (List Char)) (history : Option (List Message))
    (agent : List Char) (instruction : Option (List Char))
    (outcome : TurnOutcome) : Option (List Char) × Option (List Message) :=
  let h1 := reconcileHistory c fresh history agent instruction
  let taskId := historyTaskId h1
  match imagePaths.mapM c.upload with
  | none => (none, some h1)
  | some urls =>
    let h2 := h1 ++ [turnUserMessage c taskId prompt urls]
    match outcome with
    | .transportFail => (none, some h2)
    | .streamed r saveFail =>
      let h3 := h2 ++ [⟨taskId, "assistant".data, respContent r, c.model⟩]
      (if saveFail then none else r, some h3)

/-! ## History persistence: the append-merge of `__save_history`

Lines 266-287.  `existing = some ex` models a file at the derived path
whose JSON parses to the list `ex`; `existing = none` models both a
missing file and one whose JSON is corrupt (the `json.JSONDecodeError`
branch at line 280 leaves `history` untouched and overwrites).  The value
returned is the list passed to `json.dump` at line 287. -/

/-- The message list written to disk by `__save_history`. -/
def mergeHistory (existing : Option (List Message)) (history : List Message) :
    List Message :=
  match existing with
  | none => history
  | some ex =>
    let newMessages := history.drop ex.length
    if newMessages = [] then history else ex ++ newMessages

/-! ## Rendering content parts as JSON shapes

Used to compare the part dicts the code builds against the part shape the
specification describes.  `JVal` is a fragment of JSON values: strings and
objects. -/

/-- A JSON value: a string or an object (ordered key/value list). -/
inductive JVal where
  | s (v : List Char)
  | o (kvs : List (List Char × JVal))

/-- The JSON dict a `ContentPart` stands for, with the exact keys built by
the code: `type`/`text` for text parts, and `type`/`file_url` (nesting
`url`) for image parts (lines 470-473 and 485-488). -/
def renderPart : ContentPart → JVal
  | .textPart t => .o [("type".data, .s "text".data), ("text".data, .s t)]
  | .imagePart u =>
      .o [("type".data, .s "image_url".data),
          ("file_url".data, .o [("url".data, .s u)])]

/-- The image-part shape exactly as the specification words it:
`type: image_url` with a top-level `url` key holding the uploaded url.
This is the spec-side definition of a refinement comparison; the code-side
shape is `renderPart (ContentPart.imagePart u)`. -/
def specImagePart (u : List Char) : JVal :=
  .o [("type".data, .s "image_url".data), ("url".data, .s u)]

/-- The top-level key list of a JSON value (empty for strings). -/
def topKeys : JVal → List (List Char)
  | .s _ => []
  | .o kvs => kvs.map Prod.fst

/-! ## Lemmas about newline splitting -/

theorem glueHead_ne_nil (x : List Char) (ls : List (List Char)) :
    glueHead x ls ≠ [] := by
  cases ls <;> simp [glueHead]

theorem splitNl_ne_nil (l : List Char) : splitNl l ≠ [] := by
  induction l with
  | nil => simp [splitNl]
  | cons c rest ih =>
    by_cases hc : c = '\n' <;> simp [splitNl, hc, glueHead_ne_nil]

theorem glueHead_nil_of_ne_nil {ls : List (List Char)} (h : ls ≠ []) :
    glueHead [] ls = ls := by
  cases ls with
  | nil => exact absurd rfl h
  | cons a t => simp [glueHead]

theorem splitNl_cons_nl (rest : List Char) :
    splitNl ('\n' :: rest) = [] :: splitNl rest := by
  simp [splitNl]

theorem splitNl_cons_other {c : Char} (hc : c ≠ '\n') (rest : List Char) :
    splitNl (c :: rest) = glueHead [c] (splitNl rest) := by
  simp [splitNl, hc]

theorem getLastD_cons_of_ne_nil {α : Type} (x d : α) {t : List α} (h : t ≠ []) :
    (x :: t).getLastD d = t.getLastD d := by
  cases t with
  | nil => exact absurd rfl h
  | cons y ys => simp [List.getLastD]

theorem dropLast_cons_of_ne_nil' {α : Type} (x : α) {t : List α} (h : t ≠ []) :
    (x :: t).dropLast = x :: t.dropLast := by
  cases t with
  | nil => exact absurd rfl h
  | cons y ys => rfl

/-- Splitting a concatenation: the fragments of `a`, with the last fragment
of `a` glued onto the first fragment of `b`. -/
theorem splitNl_append (a b : List Char) :
    splitNl (a ++ b) =
      (splitNl a).dropLast ++ glueHead ((splitNl a).getLastD []) (splitNl b) := by
  induction a with
  | nil =>
    simp [splitNl, glueHead_nil_of_ne_nil (splitNl_ne_nil b)]
  | cons c a' ih =>
    by_cases hc : c = '\n'
    · subst hc
      rw [List.cons_append, splitNl_cons_nl, splitNl_cons_nl, ih,
        dropLast_cons_of_ne_nil' _ (splitNl_ne_nil a'),
        getLastD_cons_of_ne_nil _ _ (splitNl_ne_nil a'), List.cons_append]
    · rw [List.cons_append, splitNl_cons_other hc, splitNl_cons_other hc, ih]
      rcases hSa : splitNl a' with _ | ⟨h1, t⟩
      · exact absurd hSa (splitNl_ne_nil a')
      · rcases t with _ | ⟨y, ys⟩
        · rcases hSb : splitNl b with _ | ⟨hb, tb⟩
          · exact absurd hSb (splitNl_ne_nil b)
          · simp [glueHead, List.getLastD]
        · simp only [glueHead, List.dropLast_cons₂, List.cons_append]
          rw [getLastD_cons_of_ne_nil _ _ (by simp : (y :: ys) ≠ []),
            getLastD_cons_of_ne_nil _ _ (by simp : (y :: ys) ≠ [])]

/-- The trailing fragment never contains a newline. -/
theorem nl_not_mem_getLastD (l : List Char) : '\n' ∉ (splitNl l).getLastD [] := by
  induction l with
  | nil => simp [splitNl]
  | cons c rest ih =>
    by_cases hc : c = '\n'
    · subst hc
      rw [splitNl_cons_nl, getLastD_cons_of_ne_nil _ _ (splitNl_ne_nil rest)]
      exact ih
    · rw [splitNl_cons_other hc]
      rcases hS : splitNl rest with _ | ⟨h1, t⟩
      · exact absurd hS (splitNl_ne_nil rest)
      · rcases t with _ | ⟨y, ys⟩
        · rw [hS] at ih
          simp only [List.getLastD] at ih ⊢
          simp only [glueHead, List.getLastD]
          intro hmem
          rcases List.mem_append.mp hmem with hl | hr
          · exact hc (List.mem_singleton.mp hl).symm
          · exact ih hr
        · simp only [glueHead]
          rw [getLastD_cons_of_ne_nil _ _ (by simp : (y :: ys) ≠ [])]
          rw [hS] at ih
          rw [getLastD_cons_of_ne_nil _ _ (by simp : (y :: ys) ≠ [])] at ih
          exact ih

/-- A newline-free text is a single fragment. -/
theorem splitNl_eq_single {l : List Char} (h : '\n' ∉ l) : splitNl l = [l] := by
  induction l with
  | nil => simp [splitNl]
  | cons c rest ih =>
    have hc : c ≠ '\n' := fun hcc => h (hcc ▸ List.mem_cons_self c rest)
    have hrest : '\n' ∉ rest := fun hm => h (List.mem_cons_of_mem c hm)
    simp [splitNl, hc, ih hrest, glueHead]

theorem getLastD_append_of_ne_nil {α : Type} (d : α) {l2 : List α}
    (h : l2 ≠ []) (l1 : List α) : (l1 ++ l2).getLastD d = l2.getLastD d := by
  induction l1 with
  | nil => rfl
  | cons x t ih =>
    rw [List.cons_append, getLastD_cons_of_ne_nil _ _ (by simp [h]), ih]

theorem dropLast_append_of_ne_nil' {α : Type} {l2 : List α} (h : l2 ≠ [])
    (l1 : List α) : (l1 ++ l2).dropLast = l1 ++ l2.dropLast := by
  induction l1 with
  | nil => rfl
  | cons x t ih =>
    rw [List.cons_append, dropLast_cons_of_ne_nil' _ (by simp [h]), ih,
      List.cons_append]

theorem dropLast_append_getLastD {α : Type} (d : α) {l : List α} (h : l ≠ []) :
    l.dropLast ++ [l.getLastD d] = l := by
  induction l with
  | nil => exact absurd rfl h
  | cons x t ih =>
    cases t with
    | nil => rfl
    | cons y ys =>
      rw [dropLast_cons_of_ne_nil' _ (by simp),
        getLastD_cons_of_ne_nil _ _ (by simp), List.cons_append, ih (by simp)]

/-! ## Chunk-boundary invariance of the decoder loop -/

/-- Feeding two text chunks one after the other is the same as feeding
their concatenation: the retained trailing fragment exactly compensates
for the cut. -/
theorem processChunk_append (st : DecState) (a b : List Char) :
    processChunk (processChunk st a) b = processChunk st (a ++ b) := by
  by_cases ha : a = []
  · subst ha; simp [processChunk]
  · by_cases hb : b = []
    · subst hb; simp [processChunk, List.append_nil]
    · have hab : a ++ b ≠ [] := by simp [ha]
      simp only [processChunk, if_neg ha, if_neg hb, if_neg hab]
      have hx : splitNl ((splitNl (st.buffer ++ a)).getLastD []) =
          [(splitNl (st.buffer ++ a)).getLastD []] :=
        splitNl_eq_single (nl_not_mem_getLastD _)
      rw [← List.append_assoc, splitNl_append (st.buffer ++ a) b,
        splitNl_append ((splitNl (st.buffer ++ a)).getLastD []) b, hx]
      simp only [List.dropLast_single, List.nil_append]
      have hg : glueHead ((splitNl (st.buffer ++ a)).getLastD []) (splitNl b) ≠ [] :=
        glueHead_ne_nil _ _
      rw [getLastD_append_of_ne_nil _ hg, dropLast_append_of_ne_nil' hg,
        List.foldl_append]
      simp [List.getLastD]

/-- Running the loop over any chunk list is running it over the
concatenation of the chunks. -/
theorem foldl_processChunk_join (chunks : List (List Char)) (st : DecState) :
    chunks.foldl processChunk st = processChunk st chunks.flatten := by
  induction chunks generalizing st with
  | nil => simp [processChunk]
  | cons c cs ih =>
    rw [List.foldl_cons, ih, processChunk_append, List.flatten_cons]

/-- The accumulated text of the whole decode: process every fragment of
the concatenated stream (the flush step makes the final unterminated
fragment go through the same per-line rule). -/
theorem runChunks_eq_foldl (chunks : List (List Char)) :
    runChunks chunks = (splitNl chunks.flatten).foldl processLine [] := by
  unfold runChunks
  rw [foldl_processChunk_join]
  by_cases hJ : chunks.flatten = []
  · rw [hJ]
    simp [processChunk, initState, splitNl]
  · simp only [processChunk, initState, if_neg hJ, List.nil_append]
    have hS : splitNl chunks.flatten ≠ [] := splitNl_ne_nil _
    conv_rhs => rw [← dropLast_append_getLastD [] hS]
    rw [List.foldl_append, List.foldl_cons, List.foldl_nil]

/-! ## Decoding well-formed record lines -/

theorem dropLit_self_append (p r : List Char) : dropLit p (p ++ r) = some r := by
  induction p with
  | nil => rfl
  | cons c ps ih => simp [dropLit, ih]

theorem parseJsonString_quote (r : List Char) :
    parseJsonString ('"' :: r) = some ([], r) := by
  cases r <;> rfl

theorem parseJsonString_other {c : Char} (h1 : c ≠ '"') (h2 : c ≠ '\\')
    (r : List Char) :
    parseJsonString (c :: r) = (parseJsonString r).map (fun p => (c :: p.1, p.2)) := by
  cases r with
  | nil => simp [parseJsonString, h1, h2]
  | cons e r2 =>
    cases hp : parseJsonString (e :: r2) with
    | none => simp [parseJsonString, h1, h2, hp]
    | some p => cases p; simp [parseJsonString, h1, h2, hp]

theorem parseJsonString_plain {s : List Char} (hs : PlainStr s) (r : List Char) :
    parseJsonString (s ++ '"' :: r) = some (s, r) := by
  induction s with
  | nil => rw [List.nil_append]; exact parseJsonString_quote r
  | cons c cs ih =>
    have hc := hs c (List.mem_cons_self _ _)
    have hcs : PlainStr cs := fun x hx => hs x (List.mem_cons_of_mem _ hx)
    rw [List.cons_append, parseJsonString_other hc.1 hc.2.1, ih hcs]
    rfl

theorem contentOfDataJson_mkDataLine {s : List Char} (hs : PlainStr s) :
    contentOfDataJson ((mkDataLine s).drop 6) = some s := by
  have hdrop : (mkDataLine s).drop 6 = jsonOpen ++ (s ++ ['"', '\x7d']) := by
    unfold mkDataLine
    rw [List.append_assoc, List.append_assoc,
      show (6 : Nat) = dataTag.length from rfl, List.drop_left]
  rw [hdrop]
  simp only [contentOfDataJson, dropLit_self_append]
  rw [show s ++ ['"', '\x7d'] = s ++ '"' :: ['\x7d'] from rfl] at *
  rw [parseJsonString_plain hs]
  simp

theorem pyStripTruthy_mkDataLine (s : List Char) :
    pyStripTruthy (mkDataLine s) = true := by
  have : mkDataLine s = 'd' :: ("ata: ".data ++ jsonOpen ++ s ++ ['"', '\x7d']) := rfl
  rw [this]
  simp [pyStripTruthy]

theorem dataTag_isPrefixOf_mkDataLine (s : List Char) :
    dataTag.isPrefixOf (mkDataLine s) = true := by
  rw [List.isPrefixOf_iff_prefix]
  exact ⟨jsonOpen ++ s ++ ['"', '\x7d'], by simp [mkDataLine]⟩

/-- A well-formed record line contributes exactly its content string. -/
theorem processLine_mkDataLine (acc : List Char) {s : List Char}
    (hs : PlainStr s) : processLine acc (mkDataLine s) = acc ++ s := by
  unfold processLine
  rw [if_pos ⟨pyStripTruthy_mkDataLine s, dataTag_isPrefixOf_mkDataLine s⟩,
    contentOfDataJson_mkDataLine hs]

theorem processLine_nil (acc : List Char) : processLine acc [] = acc := by
  simp [processLine, pyStripTruthy]

theorem foldl_processLine_map (ss : List (List Char)) (acc : List Char)
    (hss : ∀ s ∈ ss, PlainStr s) :
    (ss.map mkDataLine).foldl processLine acc = acc ++ ss.flatten := by
  induction ss generalizing acc with
  | nil => simp
  | cons x t ih =>
    have hx : PlainStr x := hss x (List.mem_cons_self _ _)
    have ht : ∀ s ∈ t, PlainStr s := fun s hsm => hss s (List.mem_cons_of_mem _ hsm)
    rw [List.map_cons, List.foldl_cons, processLine_mkDataLine acc hx, ih _ ht,
      List.flatten_cons, List.append_assoc]

theorem nl_not_mem_mkDataLine {s : List Char} (hs : PlainStr s) :
    '\n' ∉ mkDataLine s := by
  intro hmem
  unfold mkDataLine at hmem
  rcases List.mem_append.mp hmem with h1 | h2
  · rcases List.mem_append.mp h1 with h3 | h4
    · rcases List.mem_append.mp h3 with h5 | h6
      · revert h5; decide
      · revert h6; decide
    · exact (hs _ h4).2.2 rfl
  · revert h2; decide

/-! ## Splitting a whole well-formed stream back into its lines -/

theorem splitNl_joinNl {ls : List (List Char)} (hnl : ∀ l ∈ ls, '\n' ∉ l)
    (hne : ls ≠ []) : splitNl (joinNl ls) = ls := by
  induction ls with
  | nil => exact absurd rfl hne
  | cons x t ih =>
    cases t with
    | nil => exact splitNl_eq_single (hnl x (List.mem_cons_self _ _))
    | cons y ys =>
      have hx : '\n' ∉ x := hnl x (List.mem_cons_self _ _)
      have ht : ∀ l ∈ y :: ys, '\n' ∉ l :=
        fun l hl => hnl l (List.mem_cons_of_mem _ hl)
      show splitNl (x ++ '\n' :: joinNl (y :: ys)) = x :: y :: ys
      rw [splitNl_append, splitNl_eq_single hx, splitNl_cons_nl,
        ih ht (by simp)]
      simp [glueHead]

theorem splitNl_joinNl_newline {ls : List (List Char)}
    (hnl : ∀ l ∈ ls, '\n' ∉ l) (hne : ls ≠ []) :
    splitNl (joinNl ls ++ ['\n']) = ls ++ [[]] := by
  rw [splitNl_append, splitNl_joinNl hnl hne]
  have : splitNl ['\n'] = [[], []] := rfl
  rw [this]
  show ls.dropLast ++ (ls.getLastD [] ++ []) :: [[]] = ls ++ [[]]
  rw [List.append_nil,
    show (ls.getLastD []) :: [[]] = [ls.getLastD []] ++ [[]] from rfl,
    ← List.append_assoc, dropLast_append_getLastD [] hne]

/-! ## The final quote strip -/

theorem stripLeadQ_cons_quote (rest : List Char) :
    stripLeadQ ('"' :: rest) = stripLeadQ rest := by
  simp [stripLeadQ]

theorem stripLeadQ_replicate (l : List Char) :
    ∃ n, l = List.replicate n '"' ++ stripLeadQ l := by
  induction l with
  | nil => exact ⟨0, rfl⟩
  | cons c rest ih =>
    by_cases hc : c = '"'
    · subst hc
      obtain ⟨n, hn⟩ := ih
      refine ⟨n + 1, ?_⟩
      rw [stripLeadQ_cons_quote, List.replicate_succ, List.cons_append, ← hn]
    · exact ⟨0, by simp [stripLeadQ, hc]⟩

theorem stripLeadQ_head (l : List Char) : (stripLeadQ l).head? ≠ some '"' := by
  induction l with
  | nil => simp [stripLeadQ]
  | cons c rest ih =>
    by_cases hc : c = '"'
    · subst hc; rw [stripLeadQ_cons_quote]; exact ih
    · simp [stripLeadQ, hc]

/-- Characterisation of `s.strip('"')`: the result carries no quote at
either end, and the input is the result padded with (arbitrarily many)
quotes on both sides. -/
theorem stripQuotes_spec (l : List Char) :
    (stripQuotes l).head? ≠ some '"' ∧ (stripQuotes l).getLast? ≠ some '"' ∧
      ∃ n k, l = List.replicate n '"' ++ stripQuotes l ++ List.replicate k '"' := by
  have hdef : stripQuotes l = (stripLeadQ (stripLeadQ l).reverse).reverse := rfl
  obtain ⟨n, hn⟩ := stripLeadQ_replicate l
  obtain ⟨k, hk⟩ := stripLeadQ_replicate (stripLeadQ l).reverse
  refine ⟨?_, ?_, n, k, ?_⟩
  · rw [hdef, List.head?_reverse]
    cases hm : stripLeadQ (stripLeadQ l).reverse with
    | nil => decide
    | cons y ys =>
      have h2 : (stripLeadQ l).reverse.getLast?
          = (stripLeadQ (stripLeadQ l).reverse).getLast? := by
        conv_lhs => rw [hk]
        rw [List.getLast?_append, hm]
        cases hys : (y :: ys).getLast? with
        | none => simp at hys
        | some a => rfl
      rw [hm] at h2
      rw [← h2, List.getLast?_reverse]
      exact stripLeadQ_head l
  · rw [hdef, List.getLast?_reverse]
    exact stripLeadQ_head (stripLeadQ l).reverse
  · conv_lhs => rw [hn]
    rw [List.append_assoc]
    congr 1
    have h3 : stripLeadQ l = ((stripLeadQ l).reverse).reverse := by
      rw [List.reverse_reverse]
    conv_lhs => rw [h3, hk]
    rw [List.reverse_append, List.reverse_replicate, hdef]

theorem splitNl_terminated (ls : List (List Char))
    (hnl : ∀ l ∈ ls, '\n' ∉ l) :
    splitNl ((ls.map (fun l => l ++ ['\n'])).flatten) = ls ++ [[]] := by
  induction ls with
  | nil => simp [splitNl]
  | cons x txs ih =>
    have hx : '\n' ∉ x := hnl x (List.mem_cons_self _ _)
    have ht : ∀ l ∈ txs, '\n' ∉ l := fun l hl => hnl l (List.mem_cons_of_mem _ hl)
    rw [List.map_cons, List.flatten_cons]
    have hshape : (x ++ ['\n']) ++ (txs.map (fun l => l ++ ['\n'])).flatten
        = x ++ ('\n' :: (txs.map (fun l => l ++ ['\n'])).flatten) := by
      rw [List.append_assoc]; rfl
    rw [hshape, splitNl_append, splitNl_eq_single hx, splitNl_cons_nl, ih ht]
    simp [glueHead]

theorem pyStripTruthy_dataTag_append (rest : List Char) :
    pyStripTruthy (dataTag ++ rest) = true := by
  have : dataTag ++ rest = 'd' :: ("ata: ".data ++ rest) := rfl
  rw [this]
  simp [pyStripTruthy]

/-- A line whose payload does not decode contributes nothing. -/
theorem processLine_skip (acc : List Char) {bad : List Char}
    (hb3 : contentOfDataJson (bad.drop 6) = none) :
    processLine acc bad = acc := by
  unfold processLine
  rw [hb3]
  simp

/-! ## Claim C2: chunk-boundary invariance of the streaming decoder -/

/-- C2: the streaming decoder's accumulated output over a well-formed
stream of `data:` record lines, cut into chunks at UTF-8 *character*
boundaries, equals the concatenation of the record contents in order.
This is the amended form of the claim: the cut points must respect
character boundaries (a restriction the counterexample below shows to be
necessary), whereas the claim as frozen allows arbitrary *byte*
boundaries. -/
theorem c2_chunk_boundary_invariance (ss : List (List Char)) (t : Bool)
    (chunks : List (List Char)) (hplain : ∀ s ∈ ss, PlainStr s)
    (hcut : chunks.flatten = fullStream ss t) :
    runChunks chunks = ss.flatten := by
  rw [runChunks_eq_foldl, hcut]
  unfold fullStream
  cases ss with
  | nil =>
    cases t <;> simp [joinNl, splitNl, processLine_nil]
  | cons s0 srest =>
    have hnl : ∀ l ∈ (s0 :: srest).map mkDataLine, '\n' ∉ l := by
      intro l hl
      obtain ⟨s, hsmem, rfl⟩ := List.mem_map.mp hl
      exact nl_not_mem_mkDataLine (hplain s hsmem)
    have hne : (s0 :: srest).map mkDataLine ≠ [] := by simp
    cases t with
    | false =>
      rw [show (if false then ['\n'] else []) = ([] : List Char) from rfl,
        List.append_nil, splitNl_joinNl hnl hne,
        foldl_processLine_map _ _ hplain, List.nil_append]
    | true =>
      rw [show (if true then ['\n'] else []) = ['\n'] from rfl,
        splitNl_joinNl_newline hnl hne, List.foldl_append,
        foldl_processLine_map _ _ hplain, List.nil_append]
      simp [processLine_nil]

/-- Closed instance of C2's theorem: a two-record stream with a trailing
newline, cut in the middle of the first record line. -/
theorem c2_chunk_boundary_invariance_witness :
    runChunks [(fullStream [['a'], ['b']] true).take 7,
               (fullStream [['a'], ['b']] true).drop 7] = ['a', 'b'] := by
  have h := c2_chunk_boundary_invariance [['a'], ['b']] true
      [(fullStream [['a'], ['b']] true).take 7,
       (fullStream [['a'], ['b']] true).drop 7]
      (by decide) (by simp)
  simpa using h

/-- The wire line `data:` record holding the single character é, encoded
as UTF-8 bytes; the two-byte character occupies positions 19 and 20. -/
def accentLineBytes : List Nat :=
  [100, 97, 116, 97, 58, 32, 123, 34, 99, 111, 110, 116, 101, 110, 116,
   34, 58, 32, 34, 195, 169, 34, 125]

/-- C2: counterexample to the claim as frozen.  Cutting the same
well-formed stream at a *byte* boundary that falls inside the two-byte
character é makes `chunk.decode('utf-8')` raise, so the decode returns
`None` instead of the concatenated content, while the uncut stream decodes
to é. -/
theorem c2_byte_split_counterexample :
    streamResponseBytes [accentLineBytes.take 20, accentLineBytes.drop 20] = none ∧
    streamResponseBytes [accentLineBytes] = some [Char.ofNat 233] ∧
    (none : Option (List Char)) ≠ some [Char.ofNat 233] :=
  ⟨by decide, by decide, by decide⟩

/-! ## Claim C7: the final quote strip -/

/-- A record line whose JSON content is the five characters `""a""`
(written with the JSON escapes the wire format requires). -/
def doubleQuoteLine : List Char :=
  mkDataLine ['\\', '"', '\\', '"', 'a', '\\', '"', '\\', '"']

/-- C7: counterexample.  The accumulated text `""a""` is returned as `a`:
`strip('"')` removes *every* leading and trailing quote, not at most one
as the claim states (which would give back a quoted `"a"`). -/
theorem c7_strip_counterexample :
    streamResponseText [doubleQuoteLine] = ['a'] ∧
    (['a'] : List Char) ≠ ['"', 'a', '"'] :=
  ⟨by decide, by decide⟩

/-- C7 (amended): the returned result is the accumulated text with *all*
leading and all trailing literal quote characters stripped: the result
never starts or ends with a quote, and the accumulated text is the result
padded with some number of quotes on each side. -/
theorem c7_strip_all_quotes (chunks : List (List Char)) :
    streamResponseText chunks = stripQuotes (runChunks chunks) ∧
    (streamResponseText chunks).head? ≠ some '"' ∧
    (streamResponseText chunks).getLast? ≠ some '"' ∧
    ∃ n k, runChunks chunks
      = List.replicate n '"' ++ streamResponseText chunks ++ List.replicate k '"' :=
  ⟨rfl, (stripQuotes_spec _).1, (stripQuotes_spec _).2.1, (stripQuotes_spec _).2.2⟩

/-! ## Claim C8: malformed JSON lines are skipped -/

/-- C8: a terminated line that starts with `data: ` but whose remainder
does not decode is silently skipped: the decode of the whole stream does
not abort, the bad line contributes nothing, and every well-formed line
before and after it still contributes its content, in order. -/
theorem c8_malformed_line_skipped (ss1 ss2 : List (List Char))
    (bad : List Char) (chunks : List (List Char))
    (h1 : ∀ s ∈ ss1, PlainStr s) (h2 : ∀ s ∈ ss2, PlainStr s)
    (hb1 : dataTag.isPrefixOf bad = true) (hb2 : '\n' ∉ bad)
    (hb3 : contentOfDataJson (bad.drop 6) = none)
    (hcut : chunks.flatten = ((ss1.map mkDataLine ++ bad :: ss2.map mkDataLine).map
        (fun l => l ++ ['\n'])).flatten) :
    runChunks chunks = (ss1 ++ ss2).flatten := by
  have hnl : ∀ l ∈ ss1.map mkDataLine ++ bad :: ss2.map mkDataLine, '\n' ∉ l := by
    intro l hl
    rcases List.mem_append.mp hl with hl1 | hl2
    · obtain ⟨s, hsmem, rfl⟩ := List.mem_map.mp hl1
      exact nl_not_mem_mkDataLine (h1 s hsmem)
    · rcases List.mem_cons.mp hl2 with rfl | hl3
      · exact hb2
      · obtain ⟨s, hsmem, rfl⟩ := List.mem_map.mp hl3
        exact nl_not_mem_mkDataLine (h2 s hsmem)
  rw [runChunks_eq_foldl, hcut]
  rw [splitNl_terminated _ hnl, List.foldl_append, List.foldl_cons,
    List.foldl_nil, processLine_nil, List.foldl_append,
    foldl_processLine_map _ _ h1, List.nil_append, List.foldl_cons,
    processLine_skip _ hb3, foldl_processLine_map _ _ h2,
    List.flatten_append]

/-- Closed instance of C8's theorem: one good line, one junk `data:` line
with a truncated JSON payload, one more good line, fed as one chunk. -/
theorem c8_malformed_line_skipped_witness :
    runChunks [(([mkDataLine ['a']] ++ (dataTag ++ jsonOpen) :: [mkDataLine ['b']]).map
        (fun l => l ++ ['\n'])).flatten] = ['a', 'b'] := by
  have h := c8_malformed_line_skipped [['a']] [['b']] (dataTag ++ jsonOpen)
      [(([mkDataLine ['a']] ++ (dataTag ++ jsonOpen) :: [mkDataLine ['b']]).map
        (fun l => l ++ ['\n'])).flatten]
      (by decide) (by decide) (by decide) (by decide) (by decide) (by simp)
  simpa using h

/-! ## Branch equations for `reconcileHistory` -/

theorem reconcileHistory_none (c : Client) (fresh agent : List Char)
    (instruction : Option (List Char)) :
    reconcileHistory c fresh none agent instruction
      = [⟨fresh, "system".data,
           Content.str (computedSystemPrompt c agent instruction), c.model⟩] := by
  simp [reconcileHistory, histTruthy]

theorem reconcileHistory_changed {c : Client} {fresh agent : List Char}
    {instruction : Option (List Char)} {m : Message} {hs : List Message}
    (hdiff : m.content ≠ Content.str (computedSystemPrompt c agent instruction)) :
    reconcileHistory c fresh (some (m :: hs)) agent instruction
      = ⟨m.id, "system".data,
           Content.str (computedSystemPrompt c agent instruction), c.model⟩
          :: hs.filter userOrAssistant := by
  unfold reconcileHistory
  rw [if_pos (by simp [histTruthy, hdiff])]
  cases hs with
  | nil => simp [histTruthy]
  | cons y ys => simp [histTruthy]

theorem reconcileHistory_same {c : Client} {fresh agent : List Char}
    {instruction : Option (List Char)} {m : Message} {hs : List Message}
    (heq : m.content = Content.str (computedSystemPrompt c agent instruction)) :
    reconcileHistory c fresh (some (m :: hs)) agent instruction = m :: hs := by
  unfold reconcileHistory
  rw [if_neg (by simp [histTruthy, heq])]
  rfl

/-! ## Branch equations for `get_completions` -/

theorem get_completions_uploadFail (c : Client) (fresh prompt : List Char)
    (imagePaths : List (List Char)) (history : Option (List Message))
    (agent : List Char) (instruction : Option (List Char)) (outcome : TurnOutcome)
    (hup : imagePaths.mapM c.upload = none) :
    get_completions c fresh prompt imagePaths history agent instruction outcome
      = (none, some (reconcileHistory c fresh history agent instruction)) := by
  simp only [get_completions]
  rw [hup]

theorem get_completions_transportFail (c : Client) (fresh prompt : List Char)
    (imagePaths : List (List Char)) (history : Option (List Message))
    (agent : List Char) (instruction : Option (List Char)) {urls : List (List Char)}
    (hup : imagePaths.mapM c.upload = some urls) :
    get_completions c fresh prompt imagePaths history agent instruction
        TurnOutcome.transportFail
      = (none, some (reconcileHistory c fresh history agent instruction
          ++ [turnUserMessage c
               (historyTaskId (reconcileHistory c fresh history agent instruction))
               prompt urls])) := by
  simp only [get_completions]
  rw [hup]

theorem get_completions_streamed (c : Client) (fresh prompt : List Char)
    (imagePaths : List (List Char)) (history : Option (List Message))
    (agent : List Char) (instruction : Option (List Char)) {urls : List (List Char)}
    (hup : imagePaths.mapM c.upload = some urls) (r : Option (List Char))
    (saveFail : Bool) :
    get_completions c fresh prompt imagePaths history agent instruction
        (TurnOutcome.streamed r saveFail)
      = (if saveFail then none else r,
         some (reconcileHistory c fresh history agent instruction
          ++ [turnUserMessage c
               (historyTaskId (reconcileHistory c fresh history agent instruction))
               prompt urls,
              ⟨historyTaskId (reconcileHistory c fresh history agent instruction),
               "assistant".data, respContent r, c.model⟩])) := by
  simp only [get_completions]
  rw [hup]
  simp

/-! ## The task-id/system-head invariant -/

/-- The invariant of §3 of the specification: a history is non-empty,
every message carries the task id of the first message, and the first
message has role `system`. -/
def histInv (h : List Message) : Prop :=
  h ≠ [] ∧ (∀ m ∈ h, m.id = historyTaskId h) ∧
    (h.headD dummyMessage).role = "system".data

theorem historyTaskId_cons (m : Message) (t : List Message) :
    historyTaskId (m :: t) = m.id := rfl

theorem historyTaskId_append (h : List Message) (x : Message) (hne : h ≠ []) :
    historyTaskId (h ++ [x]) = historyTaskId h := by
  cases h with
  | nil => exact absurd rfl hne
  | cons m t => rfl

theorem histInv_append {h : List Message} {x : Message} (hinv : histInv h)
    (hx : x.id = historyTaskId h) : histInv (h ++ [x]) := by
  obtain ⟨hne, hids, hrole⟩ := hinv
  cases h with
  | nil => exact absurd rfl hne
  | cons m t =>
    refine ⟨by simp, ?_, hrole⟩
    intro m' hm'
    rw [historyTaskId_append _ _ (by simp)]
    rcases List.mem_append.mp hm' with hmem | hmem
    · exact hids m' hmem
    · rw [List.mem_singleton.mp hmem]
      exact hx

theorem histInv_reconcile (c : Client) (fresh : List Char)
    (history : Option (List Message)) (agent : List Char)
    (instruction : Option (List Char))
    (hinv : history = none ∨ ∃ h, history = some h ∧ histInv h) :
    histInv (reconcileHistory c fresh history agent instruction) := by
  rcases hinv with rfl | ⟨h, rfl, hne, hids, hrole⟩
  · rw [reconcileHistory_none]
    exact ⟨by simp, by intro m hm; rw [List.mem_singleton.mp hm]; rfl, rfl⟩
  · cases h with
    | nil => exact absurd rfl hne
    | cons m hs =>
      by_cases hc : m.content = Content.str (computedSystemPrompt c agent instruction)
      · rw [reconcileHistory_same hc]
        exact ⟨hne, hids, hrole⟩
      · rw [reconcileHistory_changed hc]
        refine ⟨by simp, ?_, rfl⟩
        intro m' hm'
        rw [historyTaskId_cons]
        rcases List.mem_cons.mp hm' with rfl | hmem
        · rfl
        · exact hids m' (List.mem_cons_of_mem _ (List.mem_of_mem_filter hmem))

/-! ## Concrete clients and messages for closed instances -/

/-- A client with a fixed agent prompt `S`, model `m`, uploads returning
the fixed url `u`. -/
def clientOk : Client := ⟨['m'], fun _ _ => ['S'], fun _ => some ['u']⟩

/-- A client identical to `clientOk` except that every upload fails. -/
def clientUploadFail : Client := ⟨['m'], fun _ _ => ['S'], fun _ => none⟩

/-- A system message matching `clientOk`'s prompt, under task id `T`. -/
def sysMsgT : Message := ⟨['T'], "system".data, Content.str ['S'], ['m']⟩

/-- A system message with a different (outdated) prompt `O`. -/
def oldSysMsg : Message := ⟨['T'], "system".data, Content.str ['O'], ['m']⟩

/-- A user message under task id `T`. -/
def userMsgH : Message := ⟨['T'], "user".data, Content.str ['h'], ['m']⟩

/-- A message that diverges from the on-disk history. -/
def divergentMsg : Message := ⟨['T'], "system".data, Content.str ['X'], ['m']⟩

/-! ## Claim C1: what a failed turn returns -/

/-- C1: counterexample.  A transport failure on a turn whose entry history
is the single matching system message returns a null response together
with a history that *includes the appended user message* — the returned
history is not the history unchanged from its value at entry, contrary to
the claim. -/
theorem c1_history_mutation_counterexample :
    (get_completions clientOk ['F'] ['h'] [] (some [sysMsgT]) "default".data none
        TurnOutcome.transportFail).1 = none ∧
    (get_completions clientOk ['F'] ['h'] [] (some [sysMsgT]) "default".data none
        TurnOutcome.transportFail).2 ≠ some [sysMsgT] :=
  ⟨by decide, by decide⟩

/-- C1 (amended): every per-turn failure returns a null response together
with the history *as of the failure point*, not the entry history: an
upload failure returns the reconciled history with no turn message
appended; a transport failure returns it with exactly the turn's user
message appended; a failure after streaming (a save failure, shown here)
returns it with both the user message and an assistant message holding the
stream result.  The entry history is returned unchanged only when no
reconciliation occurred and the failure preceded the user append. -/
theorem c1_error_returns_reconciled_history (c : Client) (fresh prompt : List Char)
    (imagePaths : List (List Char)) (history : Option (List Message))
    (agent : List Char) (instruction : Option (List Char)) :
    (imagePaths.mapM c.upload = none →
      get_completions c fresh prompt imagePaths history agent instruction
          TurnOutcome.transportFail
        = (none, some (reconcileHistory c fresh history agent instruction))) ∧
    (∀ urls, imagePaths.mapM c.upload = some urls →
      get_completions c fresh prompt imagePaths history agent instruction
          TurnOutcome.transportFail
        = (none, some (reconcileHistory c fresh history agent instruction
            ++ [turnUserMessage c
                 (historyTaskId (reconcileHistory c fresh history agent instruction))
                 prompt urls]))) ∧
    (∀ urls r, imagePaths.mapM c.upload = some urls →
      get_completions c fresh prompt imagePaths history agent instruction
          (TurnOutcome.streamed r true)
        = (none, some (reconcileHistory c fresh history agent instruction
            ++ [turnUserMessage c
                 (historyTaskId (reconcileHistory c fresh history agent instruction))
                 prompt urls,
                ⟨historyTaskId (reconcileHistory c fresh history agent instruction),
                 "assistant".data, respContent r, c.model⟩]))) ∧
    (∀ urls, imagePaths.mapM c.upload = some urls →
      get_completions c fresh prompt imagePaths history agent instruction
          (TurnOutcome.streamed none false)
        = (none, some (reconcileHistory c fresh history agent instruction
            ++ [turnUserMessage c
                 (historyTaskId (reconcileHistory c fresh history agent instruction))
                 prompt urls,
                ⟨historyTaskId (reconcileHistory c fresh history agent instruction),
                 "assistant".data, Content.null, c.model⟩]))) := by
  refine ⟨fun h => get_completions_uploadFail c fresh prompt imagePaths history
      agent instruction TurnOutcome.transportFail h,
    fun urls h => get_completions_transportFail c fresh prompt imagePaths history
      agent instruction h,
    fun urls r h => ?_, fun urls h => ?_⟩
  · rw [get_completions_streamed c fresh prompt imagePaths history agent
      instruction h r true]
    simp
  · rw [get_completions_streamed c fresh prompt imagePaths history agent
      instruction h none false]
    simp [respContent]

/-- Closed instances of C1's amended theorem, one per failure mode. -/
theorem c1_error_returns_reconciled_history_witness :
    get_completions clientUploadFail ['F'] ['h'] [['p']] none "default".data none
        TurnOutcome.transportFail
      = (none, some (reconcileHistory clientUploadFail ['F'] none "default".data none)) ∧
    get_completions clientOk ['F'] ['h'] [] none "default".data none
        TurnOutcome.transportFail
      = (none, some (reconcileHistory clientOk ['F'] none "default".data none
          ++ [turnUserMessage clientOk
               (historyTaskId (reconcileHistory clientOk ['F'] none "default".data none))
               ['h'] []])) ∧
    get_completions clientOk ['F'] ['h'] [] none "default".data none
        (TurnOutcome.streamed (some ['r']) true)
      = (none, some (reconcileHistory clientOk ['F'] none "default".data none
          ++ [turnUserMessage clientOk
               (historyTaskId (reconcileHistory clientOk ['F'] none "default".data none))
               ['h'] [],
              ⟨historyTaskId (reconcileHistory clientOk ['F'] none "default".data none),
               "assistant".data, respContent (some ['r']), clientOk.model⟩])) ∧
    get_completions clientOk ['F'] ['h'] [] none "default".data none
        (TurnOutcome.streamed none false)
      = (none, some (reconcileHistory clientOk ['F'] none "default".data none
          ++ [turnUserMessage clientOk
               (historyTaskId (reconcileHistory clientOk ['F'] none "default".data none))
               ['h'] [],
              ⟨historyTaskId (reconcileHistory clientOk ['F'] none "default".data none),
               "assistant".data, Content.null, clientOk.model⟩])) :=
  ⟨(c1_error_returns_reconciled_history clientUploadFail ['F'] ['h'] [['p']] none
      "default".data none).1 (by decide),
   (c1_error_returns_reconciled_history clientOk ['F'] ['h'] [] none
      "default".data none).2.1 [] (by decide),
   (c1_error_returns_reconciled_history clientOk ['F'] ['h'] [] none
      "default".data none).2.2.1 [] (some ['r']) (by decide),
   (c1_error_returns_reconciled_history clientOk ['F'] ['h'] [] none
      "default".data none).2.2.2 [] (by decide)⟩

/-! ## Claim C3: reconciliation on agent/instruction change -/

/-- C3: when the first (system) message's content differs by value from
the system prompt computed for the requested agent/instruction, a new
history is built: its system message reuses the prior history's task id,
and it carries forward exactly the `user`/`assistant` messages of the old
history in order, with the old system message dropped; with no history at
all, a fresh task id is used; and when the prompt matches, the given
history is returned unmodified. -/
theorem c3_agent_switch_reconciliation (c : Client) (fresh agent : List Char)
    (instruction : Option (List Char)) (m : Message) (hs : List Message)
    (hrole : m.role = "system".data) :
    (reconcileHistory c fresh none agent instruction
      = [⟨fresh, "system".data,
           Content.str (computedSystemPrompt c agent instruction), c.model⟩]) ∧
    (m.content ≠ Content.str (computedSystemPrompt c agent instruction) →
      reconcileHistory c fresh (some (m :: hs)) agent instruction
        = ⟨m.id, "system".data,
             Content.str (computedSystemPrompt c agent instruction), c.model⟩
            :: (m :: hs).filter userOrAssistant) ∧
    (m.content = Content.str (computedSystemPrompt c agent instruction) →
      reconcileHistory c fresh (some (m :: hs)) agent instruction = m :: hs) := by
  have hua : userOrAssistant m = false := by
    unfold userOrAssistant
    rw [hrole]
    decide
  refine ⟨reconcileHistory_none c fresh agent instruction, fun hdiff => ?_,
    fun heq => reconcileHistory_same heq⟩
  rw [reconcileHistory_changed hdiff]
  simp [List.filter_cons, hua]

/-- Closed instance of C3's theorem: a history whose system prompt is
outdated is rebuilt under the old task id with the user turn preserved. -/
theorem c3_agent_switch_reconciliation_witness :
    reconcileHistory clientOk ['F'] (some [oldSysMsg, userMsgH]) "default".data none
      = [⟨['T'], "system".data, Content.str ['S'], ['m']⟩, userMsgH] := by
  have h := (c3_agent_switch_reconciliation clientOk ['F'] "default".data none
      oldSysMsg [userMsgH] (by decide)).2.1 (by decide)
  exact h.trans (by decide)

/-! ## Claim C5: the user message content list -/

/-- C5: counterexample to the part shape the claim states.  The appended
user message's image part is the dict with key `file_url` nesting the
`url`, not the claimed flat `url` key: rendering the part the code builds
differs from the spec's shape. -/
theorem c5_image_part_shape_counterexample :
    (get_completions clientOk ['F'] ['q'] [['p']] none "default".data none
        (TurnOutcome.streamed (some ['r']) false)).2
      = some [⟨['F'], "system".data, Content.str ['S'], ['m']⟩,
              ⟨['F'], "user".data,
               Content.parts [ContentPart.textPart ['q'], ContentPart.imagePart ['u']],
               ['m']⟩,
              ⟨['F'], "assistant".data, Content.str ['r'], ['m']⟩] ∧
    renderPart (ContentPart.imagePart ['u']) ≠ specImagePart ['u'] := by
  refine ⟨by decide, ?_⟩
  intro h
  have h2 : topKeys (renderPart (ContentPart.imagePart ['u']))
      = topKeys (specImagePart ['u']) := by rw [h]
  revert h2
  decide

/-- C5 (amended): with non-empty text and successfully uploaded images,
the appended user message's content is an ordered list whose first element
is the text part for the prompt, followed by one image part per uploaded
url in input order — each image part being the dict
`type: image_url, file_url: (url: u)` rather than the flat shape the claim
words state. -/
theorem c5_user_content_order (c : Client) (fresh prompt : List Char)
    (imagePaths : List (List Char)) (history : Option (List Message))
    (agent : List Char) (instruction : Option (List Char))
    (urls : List (List Char)) (r : Option (List Char)) (hp : prompt ≠ [])
    (hup : imagePaths.mapM c.upload = some urls) :
    buildUserContent prompt urls
      = ContentPart.textPart prompt :: urls.map ContentPart.imagePart ∧
    (get_completions c fresh prompt imagePaths history agent instruction
        (TurnOutcome.streamed r false)).2
      = some (reconcileHistory c fresh history agent instruction
          ++ [⟨historyTaskId (reconcileHistory c fresh history agent instruction),
               "user".data,
               Content.parts (ContentPart.textPart prompt
                 :: urls.map ContentPart.imagePart),
               c.model⟩,
              ⟨historyTaskId (reconcileHistory c fresh history agent instruction),
               "assistant".data, respContent r, c.model⟩]) := by
  have hbc : buildUserContent prompt urls
      = ContentPart.textPart prompt :: urls.map ContentPart.imagePart := by
    unfold buildUserContent
    rw [if_pos hp]
    rfl
  refine ⟨hbc, ?_⟩
  rw [get_completions_streamed c fresh prompt imagePaths history agent
    instruction hup r false]
  simp [turnUserMessage, hbc]

/-- Closed instance of C5's theorem: one image path uploads to one url,
and the content list is the text part followed by that image part. -/
theorem c5_user_content_order_witness :
    (get_completions clientOk ['F'] ['q'] [['p']] none "default".data none
        (TurnOutcome.streamed (some ['r']) false)).2
      = some (reconcileHistory clientOk ['F'] none "default".data none
          ++ [⟨historyTaskId (reconcileHistory clientOk ['F'] none "default".data none),
               "user".data,
               Content.parts (ContentPart.textPart ['q']
                 :: [['u']].map ContentPart.imagePart),
               clientOk.model⟩,
              ⟨historyTaskId (reconcileHistory clientOk ['F'] none "default".data none),
               "assistant".data, respContent (some ['r']), clientOk.model⟩]) :=
  (c5_user_content_order clientOk ['F'] ['q'] [['p']] none "default".data none
    [['u']] (some ['r']) (by decide) (by decide)).2

/-! ## Claim C6: empty text and no images -/

/-- C6: counterexample.  With empty text and an empty image list the call
does not fail: it appends a user message whose content is the empty list
and completes the turn, returning the streamed response — there is no
`InvalidInput` validation in the code. -/
theorem c6_empty_turn_counterexample :
    get_completions clientOk ['F'] [] [] none "default".data none
        (TurnOutcome.streamed (some ['r']) false)
      = (some ['r'],
         some [⟨['F'], "system".data, Content.str ['S'], ['m']⟩,
               ⟨['F'], "user".data, Content.parts [], ['m']⟩,
               ⟨['F'], "assistant".data, Content.str ['r'], ['m']⟩]) := by
  decide

/-- C6 (amended): with empty text and no images, `get_completions`
performs no emptiness validation: it appends a user message whose content
is the empty part list and completes the turn normally. -/
theorem c6_empty_turn_appends_empty_content (c : Client) (fresh : List Char)
    (history : Option (List Message)) (agent : List Char)
    (instruction : Option (List Char)) (r : Option (List Char)) :
    get_completions c fresh [] [] history agent instruction
        (TurnOutcome.streamed r false)
      = (r, some (reconcileHistory c fresh history agent instruction
          ++ [⟨historyTaskId (reconcileHistory c fresh history agent instruction),
               "user".data, Content.parts [], c.model⟩,
              ⟨historyTaskId (reconcileHistory c fresh history agent instruction),
               "assistant".data, respContent r, c.model⟩])) := by
  rw [get_completions_streamed c fresh [] [] history agent instruction rfl r false]
  simp [turnUserMessage, buildUserContent]

/-! ## Claim C9: the task-id/system-head invariant -/

/-- C9: invariant preservation.  Starting from no history or from a
history satisfying the invariant (every message carries the first
message's task id; the first message has role `system`), the history
returned by `get_completions` — on every outcome, including all failure
paths — again satisfies the invariant. -/
theorem c9_taskid_invariant (c : Client) (fresh prompt : List Char)
    (imagePaths : List (List Char)) (history : Option (List Message))
    (agent : List Char) (instruction : Option (List Char)) (outcome : TurnOutcome)
    (hinv : history = none ∨ ∃ h, history = some h ∧ histInv h) :
    ∃ h', (get_completions c fresh prompt imagePaths history agent instruction
        outcome).2 = some h' ∧ histInv h' := by
  have hrec := histInv_reconcile c fresh history agent instruction hinv
  cases hup : imagePaths.mapM c.upload with
  | none =>
    exact ⟨_, by rw [get_completions_uploadFail c fresh prompt imagePaths history
      agent instruction outcome hup], hrec⟩
  | some urls =>
    cases outcome with
    | transportFail =>
      refine ⟨_, by rw [get_completions_transportFail c fresh prompt imagePaths
        history agent instruction hup], ?_⟩
      exact histInv_append hrec rfl
    | streamed r saveFail =>
      refine ⟨(reconcileHistory c fresh history agent instruction
          ++ [turnUserMessage c
               (historyTaskId (reconcileHistory c fresh history agent instruction))
               prompt urls])
          ++ [⟨historyTaskId (reconcileHistory c fresh history agent instruction),
               "assistant".data, respContent r, c.model⟩], ?_, ?_⟩
      · rw [get_completions_streamed c fresh prompt imagePaths history agent
          instruction hup r saveFail]
        simp
      · have h2 := histInv_append hrec
          (rfl : (turnUserMessage c
            (historyTaskId (reconcileHistory c fresh history agent instruction))
            prompt urls).id = _)
        refine histInv_append h2 ?_
        rw [historyTaskId_append _ _ hrec.1]

/-- Closed instance of C9's theorem: a fresh conversation with a
successful round trip. -/
theorem c9_taskid_invariant_witness :
    ∃ h', (get_completions clientOk ['F'] ['h'] [] none "default".data none
        (TurnOutcome.streamed (some ['r']) false)).2 = some h' ∧ histInv h' :=
  c9_taskid_invariant clientOk ['F'] ['h'] [] none "default".data none
    (TurnOutcome.streamed (some ['r']) false) (Or.inl rfl)

/-! ## Claim C4: append-merge on save -/

/-- C4: when the on-disk history has `N` messages and the in-memory
history has `N + k` (`k > 0`) messages sharing its first `N` with the
file, the saved list is the existing `N` messages followed by exactly the
last `k` in-memory messages — which, under the sharing hypothesis, is the
in-memory history itself, with no message duplicated. -/
theorem c4_append_merge (ex mem : List Message) (k : Nat) (hk : 0 < k)
    (hlen : mem.length = ex.length + k) (hshare : mem.take ex.length = ex) :
    mergeHistory (some ex) mem = ex ++ mem.drop ex.length ∧
    mergeHistory (some ex) mem = mem ∧ (mem.drop ex.length).length = k := by
  have hne : mem.drop ex.length ≠ [] := by
    rw [ne_eq, List.drop_eq_nil_iff]
    omega
  have h1 : mergeHistory (some ex) mem = ex ++ mem.drop ex.length := by
    simp [mergeHistory, hne]
  refine ⟨h1, ?_, ?_⟩
  · rw [h1]
    nth_rewrite 1 [← hshare]
    rw [List.take_append_drop]
  · rw [List.length_drop, hlen]
    omega

/-- Closed instance of C4's theorem: a one-message file and a two-message
in-memory history that extends it. -/
theorem c4_append_merge_witness :
    mergeHistory (some [sysMsgT]) [sysMsgT, userMsgH] = [sysMsgT, userMsgH] :=
  (c4_append_merge [sysMsgT] [sysMsgT, userMsgH] 1 (by decide) (by decide)
    (by decide)).2.1

/-! ## Claim C10: saving over a longer or divergent file -/

/-- C10: counterexample.  With a two-message file and a divergent
one-message in-memory history, the saved list is the in-memory history,
not the existing file content: the `history = existing_history` rebind is
guarded by `if new_messages:`, so when no suffix exists the in-memory list
is written and the on-disk content is replaced, contrary to the claim. -/
theorem c10_overwrite_counterexample :
    mergeHistory (some [sysMsgT, userMsgH]) [divergentMsg] = [divergentMsg] ∧
    ([divergentMsg] : List Message) ≠ [sysMsgT, userMsgH] :=
  ⟨by decide, by decide⟩

/-- C10 (amended): when the existing file parses to a list whose length is
at least the in-memory history's length, the file is rewritten with
exactly the *in-memory* messages: the existing content is discarded
(messages beyond the in-memory length are lost), and the in-memory
messages below the file's length are never compared against the file. -/
theorem c10_shorter_history_overwrites (ex mem : List Message)
    (hle : mem.length ≤ ex.length) : mergeHistory (some ex) mem = mem := by
  have hdrop : mem.drop ex.length = [] := List.drop_eq_nil_iff.mpr hle
  simp [mergeHistory, hdrop]

/-- Closed instance of C10's amended theorem. -/
theorem c10_shorter_history_overwrites_witness :
    mergeHistory (some [sysMsgT, userMsgH]) [sysMsgT] = [sysMsgT] :=
  c10_shorter_history_overwrites [sysMsgT, userMsgH] [sysMsgT] (by decide)

end MindfulClient
